import Mathlib

set_option maxHeartbeats 1000000

/-!
Verification of the runtime-preparation module (src/ansiblelint/prerun.py).

The Python code is shallowly embedded: each helper function becomes a Lean
function over explicit inputs.  Dynamic typing of the metadata mapping is
modelled by the type PyVal; Python exceptions become the error side of
Except PyErr.  Filesystem side effects are modelled as explicit effect
traces, and the two pieces of global configuration that the code reads
(options.cache_dir, options.project_dir) are passed as parameters.
-/

/-- Python values that can occur in the metadata mappings read by the code.
Strings are the expected case; an integer stands for any non-string value
(every other non-string type likewise fails at the first dynamic operation,
len() or re.match(), exactly as the integer case does). -/
inductive PyVal where
  | str (s : String)
  | int (n : Int)
deriving DecidableEq

/-- Python exceptions that the embedded code can raise. -/
inductive PyErr where
  | typeError (msg : String)
  | runtimeError (msg : String)
  | osError (msg : String)
  | fileExistsError (msg : String)
deriving DecidableEq

/-- ASCII fragment of the regex character class backslash-w used throughout
prerun.py: letters, digits and the underscore.  (Python additionally counts
non-ASCII word characters; the claims only concern ASCII inputs.) -/
def wordChar (c : Char) : Bool := c.isAlphanum || c = '_'

/-- Embedding of Python len(v): defined for strings (number of characters),
a TypeError for non-string values. -/
def pyLen : PyVal → Except PyErr Nat
  | .str s => .ok s.length
  | .int _ => .error (.typeError "object of type int has no len()")

/-- Embedding of Python str(v) as used by f-string interpolation: the string
itself, or the decimal rendering of an integer. -/
def pyFStr : PyVal → String
  | .str s => s
  | .int n => toString n

/-- Embedding of the regex test re.match applied to pattern caret, w-plus,
space, w-plus on a character list: the input must start with a nonempty run
of word characters, then a space, then at least one word character.  The
run of word characters before the space is maximal automatically, since a
space is not a word character. -/
def matchWordSpaceWord (l : List Char) : Bool :=
  !(l.takeWhile wordChar).isEmpty &&
    match l.dropWhile wordChar with
    | ' ' :: c :: _ => wordChar c
    | [' '] => false
    | _ => false

/-- Embedding of re.match(r"caret-w+ w+", role_namespace) from
_get_galaxy_role_ns: Python re.match raises a TypeError when the subject is
not a string. -/
def reMatchNameHeuristic : PyVal → Except PyErr Bool
  | .str s => .ok (matchWordSpaceWord s.data)
  | .int _ => .error (.typeError "expected string or bytes-like object")

/-- Role metadata mapping (the galaxy_infos dictionary read from
meta/main.yml), restricted to the three keys the code looks up.  A none
field models an absent key. -/
structure GalaxyInfos where
  ns : Option PyVal := none
  author : Option PyVal := none
  role_name : Option PyVal := none
deriving DecidableEq

/-- Embedding of _get_galaxy_role_ns.  Mirrors the source line by line:
read the namespace key (default empty string), fall back to the author key
when its length is zero, discard the value when it matches the
word-space-word heuristic (else append a trailing dot via the f-string),
then check isinstance(role_namespace, str).  The f-string always produces a
string, so the RuntimeError branch of the final check is unreachable. -/
def getGalaxyRoleNs (g : GalaxyInfos) : Except PyErr String :=
  let v0 : PyVal := g.ns.getD (.str "")
  match pyLen v0 with
  | .error e => .error e
  | .ok n =>
    let v1 : PyVal := if n = 0 then g.author.getD (.str "") else v0
    match reMatchNameHeuristic v1 with
    | .error e => .error e
    | .ok m =>
      let v2 : PyVal := if m then .str "" else .str (pyFStr v1 ++ ".")
      match v2 with
      | .str s => .ok s
      | v => .error (.runtimeError ("Role namespace must be string, not " ++ pyFStr v))

/-- Embedding of _get_galaxy_role_name: the role_name key with an
empty-string default. -/
def getGalaxyRoleName (g : GalaxyInfos) : PyVal := g.role_name.getD (.str "")

/-- Embedding of re.sub(r"(ansible-|ansible-role-)", "", s).  Python re.sub
scans left to right and at each position tries the alternatives in order,
so the alternative "ansible-" is tested first; because every match of
"ansible-role-" begins with "ansible-", the first alternative succeeds at
every position where the second could, and the second alternative is never
selected.  The scan therefore deletes each occurrence of "ansible-" and
resumes after it. -/
def reSubAnsible : List Char → List Char
  | 'a' :: 'n' :: 's' :: 'i' :: 'b' :: 'l' :: 'e' :: '-' :: rest => reSubAnsible rest
  | c :: cs => c :: reSubAnsible cs
  | [] => []

/-- Embedding of _get_role_fqrn.  The parameter cwdName models the value of
pathlib.Path(".").absolute().name, the final segment of the current working
directory.  When the role_name key is empty the name is derived from
cwdName with the ansible prefix substitution applied. -/
def getRoleFqrn (g : GalaxyInfos) (cwdName : String) : Except PyErr String :=
  match getGalaxyRoleNs g with
  | .error e => .error e
  | .ok ns =>
    let rn : PyVal := getGalaxyRoleName g
    match pyLen rn with
    | .error e => .error e
    | .ok n =>
      let rnStr : String :=
        if n = 0 then String.mk (reSubAnsible cwdName.data) else pyFStr rn
      .ok (ns ++ rnStr)

/-- Helper: the result of the namespace resolver is never the dedicated
RuntimeError. -/
def isRuntimeErr : Except PyErr String → Bool
  | .error (.runtimeError _) => true
  | _ => false

theorem getGalaxyRoleNs_no_runtimeError (g : GalaxyInfos) :
    isRuntimeErr (getGalaxyRoleNs g) = false := by
  unfold getGalaxyRoleNs
  cases hv0 : g.ns.getD (PyVal.str "") with
  | int n => simp [pyLen, isRuntimeErr]
  | str s =>
    simp only [pyLen]
    cases hv1 : if s.length = 0 then g.author.getD (PyVal.str "") else PyVal.str s with
    | int n => simp [reMatchNameHeuristic, isRuntimeErr]
    | str t =>
      cases hm : matchWordSpaceWord t.data <;>
        simp [reMatchNameHeuristic, hm, isRuntimeErr]

/-- C1: the claim states that with namespace, author and role_name all
empty or absent, in a working directory named "myrole", the resolved FQRN
is "myrole" with no trailing dot separator.  The code disagrees: the
trailing dot is appended by the f-string even when the resolved namespace
is the empty string, so the result is ".myrole". -/
theorem c1_empty_metadata_fqrn_has_leading_dot :
    getRoleFqrn {} "myrole" = .ok ".myrole" := by rfl

/-- C2: the claim states that with author "Jane Doe" and everything else
empty, in a working directory named "ansible-role-web", the resolved FQRN
is "web".  The author heuristic does reject the namespace, but the regex
alternation deletes only "ansible-" (the alternative "ansible-role-" is
never reachable), so the code yields "role-web". -/
theorem c2_jane_doe_fqrn_is_role_web :
    getRoleFqrn { author := some (.str "Jane Doe") } "ansible-role-web"
      = .ok "role-web" := by rfl

/-- C9: the claim states that a non-string resolved namespace raises the
dedicated RuntimeError saying the role namespace must be a string.  In the
code the isinstance check sits after the f-string interpolation, which has
already produced a string, so that branch is unreachable: a non-string
value instead raises a TypeError earlier, at len() or at re.match().  The
first conjunct evaluates the code on one such input; the second shows the
RuntimeError is raised for no input at all. -/
theorem c9_nonstring_namespace_raises_typeerror_not_runtimeerror :
    getGalaxyRoleNs { ns := some (.int 123) }
        = .error (.typeError "object of type int has no len()")
      ∧ ∀ g : GalaxyInfos, isRuntimeErr (getGalaxyRoleNs g) = false :=
  ⟨rfl, getGalaxyRoleNs_no_runtimeError⟩

/-- Embedding of module_name.split("."): Python str.split on a single-dot
separator, which keeps empty chunks (so "a..b" gives three parts and ""
gives one empty part). -/
def pySplitDot (s : String) : List String :=
  (s.data.splitOn '.').map String.mk

/-- Characters accepted by the regex class holding a dot and backslash-w: a
word character or a dot. -/
def dotWordChar (c : Char) : Bool := wordChar c || c = '.'

/-- Matcher for the part of the second regex alternative that follows the
first token and its dot: w-plus, dot, then one-or-more of dot-or-word up to
the end.  A greedy w-plus run is forced because the following literal is a
dot, which is not a word character, so the maximal word run is the only
viable one; the closing class run must consume the whole remainder. -/
def matchesTail (r2 : List Char) : Bool :=
  !(r2.takeWhile wordChar).isEmpty &&
    match r2.dropWhile wordChar with
    | '.' :: r4 => !r4.isEmpty && r4.all dotWordChar
    | _ => false

/-- Matcher for the body of the module-name regex, the alternation of
w-plus alone with w-plus, dot, followed by the tail matched by matchesTail.
The first alternative is the whole-input word run; trying it first agrees
with the alternation because the two alternatives are distinguished by
whether anything follows the initial word run. -/
def matchesModuleBody (l : List Char) : Bool :=
  !(l.takeWhile wordChar).isEmpty &&
    match l.dropWhile wordChar with
    | [] => true
    | '.' :: r2 => matchesTail r2
    | _ => false

/-- Python re semantics: with no multiline flag the dollar anchor matches at
the end of the subject or just before one final newline, so re.match with a
pattern anchored by a dollar also accepts the body followed by one trailing
newline. -/
def stripFinalNewline (l : List Char) : List Char :=
  if l.getLast? = some (Char.ofNat 10) then l.dropLast else l

/-- Embedding of the validity test in _make_module_stub, the regex anchored
between caret and dollar whose body is matched by matchesModuleBody. -/
def reMatchModuleName (s : String) : Bool :=
  matchesModuleBody (stripFinalNewline s.data)

/-- Embedding of "/".join(parts). -/
def joinSlash : List String → String
  | [] => ""
  | [s] => s
  | s :: rest => s ++ "/" ++ joinSlash rest

/-- Values computed by the path-computation block of _make_module_stub. -/
structure StubInfo where
  path : String
  module_file : String
  ns : Option String
  coll : Option String
deriving DecidableEq

/-- Embedding of the path computation inside _make_module_stub: split the
name on dots; with fewer than three parts use the flat modules directory,
otherwise the collection layout built by the f-strings.  In the second
branch the list has at least three elements, so the default values supplied
to headD and getLastD are never used. -/
def computeStub (cache : String) (module_name : String) : StubInfo :=
  let parts := pySplitDot module_name
  if parts.length < 3 then
    { path := cache ++ "/modules"
      module_file := cache ++ "/modules/" ++ module_name ++ ".py"
      ns := none
      coll := none }
  else
    let p0 := parts.headD ""
    let p1 := (parts.drop 1).headD ""
    let mid := (parts.drop 2).dropLast
    let stem := parts.getLastD ""
    let path := cache ++ "/collections/ansible_collections/" ++ p0 ++ "/" ++ p1
        ++ "/plugins/modules/" ++ joinSlash mid
    { path := path
      module_file := path ++ "/" ++ stem ++ ".py"
      ns := some p0
      coll := some p1 }

/-- Modelled from the spec: INVALID_CONFIG_RC is a constant imported from
ansiblelint.constants, which is outside the sources under verification; the
spec treats it as the fixed invalid-configuration exit status, so it is
modelled as an abstract token. -/
inductive ExitCode where
  | INVALID_CONFIG_RC
deriving DecidableEq

/-- Modelled from the spec: ANSIBLE_MOCKED_MODULE is an external template
constant accepting name, namespace and collection substitutions; the
embedding records the three substituted values rather than opaque text. -/
structure StubContent where
  name : String
  ns : Option String
  coll : Option String
deriving DecidableEq

/-- Filesystem effects issued by the stub writer. -/
inductive FsOp where
  | makedirs (path : String)
  | writeStub (filename : String) (content : StubContent)
deriving DecidableEq

/-- Embedding of _write_module_stub: format the external template with the
given substitutions and write the result to filename. -/
def writeModuleStub (filename : String) (name : String)
    (ns : Option String) (coll : Option String) : FsOp :=
  .writeStub filename { name := name, ns := ns, coll := coll }

/-- Outcome of _make_module_stub: the filesystem effects performed in order,
plus the sys.exit call (exit code and logged error) if one happened. -/
structure StubResult where
  effects : List FsOp
  exit : Option (ExitCode × String)
deriving DecidableEq

/-- Embedding of _make_module_stub.  A name accepted by the pattern leads to
os.makedirs on the computed directory followed by the stub write, whose
name argument is the computed module_file.  A rejected name leads to the
logged configuration error and sys.exit(INVALID_CONFIG_RC) with no
filesystem effect. -/
def makeModuleStub (cache : String) (module_name : String) : StubResult :=
  if reMatchModuleName module_name then
    let s := computeStub cache module_name
    { effects := [.makedirs s.path, writeModuleStub s.module_file s.module_file s.ns s.coll]
      exit := none }
  else
    { effects := []
      exit := some (.INVALID_CONFIG_RC,
        "Config error: " ++ module_name ++ " is not a valid module name.") }

/-- Claim predicate for module identifiers, written from the claim text of
C3: word-character tokens separated by single dots, with either exactly one
segment or at least three segments (so no empty segment anywhere, which
rules out consecutive, leading and trailing dots). -/
def wordToken (l : List Char) : Bool := !l.isEmpty && l.all wordChar

def specValidModuleName (s : String) : Bool :=
  let parts := s.data.splitOn '.'
  (parts.length == 1 || decide (3 ≤ parts.length)) && parts.all wordToken

/-- Stub file path formula as the specification words it: fewer than three
dot-segments map into the flat modules directory; otherwise the first
segment is the namespace, the second the collection, the middle segments
join into the plugin subpath with slashes, and the last segment is the file
stem.  Written from the spec text as the comparison target for C5. -/
def specStubFile (cache : String) (module_name : String) : Option String :=
  let parts := pySplitDot module_name
  if parts.length < 3 then
    some (cache ++ "/modules/" ++ module_name ++ ".py")
  else do
    let ns ← parts.head?
    let coll ← (parts.drop 1).head?
    let stem ← parts.getLast?
    let sub := String.intercalate "/" ((parts.drop 2).dropLast)
    some (cache ++ "/collections/ansible_collections/" ++ ns ++ "/" ++ coll
      ++ "/plugins/modules/" ++ sub ++ "/" ++ stem ++ ".py")

theorem joinSlash_go (as : List String) : ∀ a : String,
    String.intercalate.go a "/" as = joinSlash (a :: as) := by
  induction as with
  | nil => intro a; rfl
  | cons b bs ih =>
    intro a
    rw [String.intercalate.go, ih (a ++ "/" ++ b)]
    cases bs with
    | nil => rfl
    | cons c cs => simp [joinSlash, String.append_assoc]

theorem joinSlash_eq_intercalate (l : List String) :
    joinSlash l = String.intercalate "/" l := by
  cases l with
  | nil => rfl
  | cons a as => rw [String.intercalate, joinSlash_go]

/-- C3 counterexample: the code accepts "a.b..c" although it contains
consecutive dots, and accepts "foo" followed by a newline although the
newline is not a word character; the claim says both are rejected. -/
theorem c3_pattern_counterexample :
    (reMatchModuleName "a.b..c" = true ∧ specValidModuleName "a.b..c" = false)
      ∧ reMatchModuleName "foo\n" = true ∧ specValidModuleName "foo\n" = false := by
  exact ⟨⟨by decide, by decide⟩, by decide, by decide⟩

/-- C4 counterexample: "a.b.c" and "a.b..c" are two distinct identifiers,
both accepted by the validity pattern of the stub writer, whose computed
stub file paths are the same string, so the path mapping is not injective
on the set of accepted identifiers. -/
theorem c4_injectivity_counterexample :
    reMatchModuleName "a.b.c" = true ∧ reMatchModuleName "a.b..c" = true
      ∧ ("a.b.c" == "a.b..c") = false
      ∧ (computeStub "/c" "a.b.c").module_file = (computeStub "/c" "a.b..c").module_file := by
  exact ⟨by decide, by decide, by decide, by decide⟩

/-- C5: for every module identifier accepted by the validity pattern, the
stub file path computed by the code agrees with the path formula stated by
the specification. -/
theorem c5_stub_path_follows_spec_formula (cache module_name : String)
    (h : reMatchModuleName module_name = true) :
    specStubFile cache module_name = some ((computeStub cache module_name).module_file) := by
  by_cases hl : (pySplitDot module_name).length < 3
  · simp [specStubFile, computeStub, hl]
  · rcases hq : pySplitDot module_name with _ | ⟨p0, _ | ⟨p1, _ | ⟨p2, rest⟩⟩⟩
    · rw [hq] at hl; simp at hl
    · rw [hq] at hl; simp at hl
    · rw [hq] at hl; simp at hl
    · have hst : ∃ x, (p2 :: rest).getLast? = some x := by
        cases hg : (p2 :: rest).getLast? with
        | none => exact absurd hg (by simp)
        | some x => exact ⟨x, rfl⟩
      obtain ⟨st, hst⟩ := hst
      have h3 : ¬(rest.length + 1 + 1 + 1 < 3) := by omega
      simp [specStubFile, computeStub, hl, hq, hst, joinSlash_eq_intercalate,
        List.getLast?_cons_cons, h3]

theorem c5_stub_path_witness :
    reMatchModuleName "ns.coll.sub.mod" = true
      ∧ (computeStub "/c" "ns.coll.sub.mod").module_file
          = "/c/collections/ansible_collections/ns/coll/plugins/modules/sub/mod.py"
      ∧ (computeStub "/c" "foo").module_file = "/c/modules/foo.py"
      ∧ specStubFile "/c" "ns.coll.sub.mod"
          = some ((computeStub "/c" "ns.coll.sub.mod").module_file) :=
  ⟨by decide, by decide, by decide,
    c5_stub_path_follows_spec_formula "/c" "ns.coll.sub.mod" (by decide)⟩

/-- C6: every module identifier rejected by the validity pattern makes the
stub writer log the configuration error and call sys.exit with the
invalid-configuration code, and no directory or file is created. -/
theorem c6_invalid_module_name_exits (cache module_name : String)
    (h : reMatchModuleName module_name = false) :
    makeModuleStub cache module_name
      = { effects := []
          exit := some (.INVALID_CONFIG_RC,
            "Config error: " ++ module_name ++ " is not a valid module name.") } := by
  simp [makeModuleStub, h]

theorem c6_invalid_module_name_witness :
    reMatchModuleName "1bad!name" = false
      ∧ makeModuleStub "/c" "1bad!name"
          = { effects := []
              exit := some (.INVALID_CONFIG_RC,
                "Config error: " ++ "1bad!name" ++ " is not a valid module name.") } :=
  ⟨by decide, c6_invalid_module_name_exits "/c" "1bad!name" (by decide)⟩

/-- Name substitution recorded by the first stub write of a stub-writer
outcome, if any. -/
def writtenStubName (r : StubResult) : Option String :=
  (r.effects.filterMap fun op =>
    match op with
    | .writeStub _ c => some c.name
    | _ => none).head?

/-- C10: for every accepted module identifier the value substituted for
name in the stub template is the full computed stub file path, not the
module identifier itself. -/
theorem c10_template_name_is_module_file (cache module_name : String)
    (h : reMatchModuleName module_name = true) :
    writtenStubName (makeModuleStub cache module_name)
      = some ((computeStub cache module_name).module_file) := by
  simp [makeModuleStub, h, writtenStubName, writeModuleStub]

theorem c10_template_name_witness :
    reMatchModuleName "foo" = true
      ∧ writtenStubName (makeModuleStub "/c" "foo")
          = some ((computeStub "/c" "foo").module_file)
      ∧ ((computeStub "/c" "foo").module_file == "foo") = false
      ∧ ((computeStub "/c" "ns.coll.sub.mod").module_file == "ns.coll.sub.mod") = false :=
  ⟨by decide, c10_template_name_is_module_file "/c" "foo" (by decide),
    by decide, by decide⟩

/-- Entry possibly occupying the self-collection link path. -/
inductive FsEntry where
  | symlink (target : String)
  | realdir
deriving DecidableEq

/-- State of the filesystem as seen by the self-collection linking step of
_perform_mockings: the entry at link_path, plus the absolute paths that
currently resolve to an existing file or directory (consulted when
exists() follows a symlink to its target). -/
structure LinkFs where
  entry : Option FsEntry
  live : List String
deriving DecidableEq

/-- Embedding of link_path.exists(): os.stat follows symlinks, so a symlink
whose target does not resolve to anything live reports False even though
the symlink entry itself is present. -/
def linkPathExists (fs : LinkFs) : Bool :=
  match fs.entry with
  | none => false
  | some .realdir => true
  | some (.symlink t) => fs.live.contains t

/-- Embedding of os.readlink(link_path): the stored target for a symlink
entry, an OSError otherwise. -/
def readlinkEntry (fs : LinkFs) : Except PyErr String :=
  match fs.entry with
  | some (.symlink t) => .ok t
  | some .realdir => .error (.osError "readlink: invalid argument")
  | none => .error (.osError "readlink: no such file or directory")

/-- Embedding of the comparison os.readlink(link_path) != target exactly as
the source writes it: the left operand is a str and the right operand is
the pathlib.Path held in the variable target.  In Python a str never
compares equal to a Path (both __eq__ methods return NotImplemented for the
foreign type, and the fallback is object identity), so this inequality
evaluates to True for every pair of values. -/
def strNePath (_s : String) (_target : String) : Bool := true

/-- Filesystem actions performed at link_path by the linking step. -/
inductive LinkOp where
  | unlink
  | symlinkNew (target : String)
deriving DecidableEq

/-- Embedding of the self-collection linking block at the end of
_perform_mockings, for a given state of link_path and a given absolute
project directory (the Path value bound to target in the source).  The
result is the final state together with the trace of actions performed at
link_path, or the Python exception raised.  symlink_to raises
FileExistsError when an entry is still present at link_path. -/
def selfLinkStep (fs : LinkFs) (target : String) : Except PyErr (LinkFs × List LinkOp) :=
  let cond : Except PyErr Bool :=
    if linkPathExists fs then
      match readlinkEntry fs with
      | .error e => .error e
      | .ok l => .ok (strNePath l target)
    else .ok true
  match cond with
  | .error e => .error e
  | .ok c =>
    if c then
      let step1 : LinkFs × List LinkOp :=
        if linkPathExists fs then ({ fs with entry := none }, [LinkOp.unlink])
        else (fs, [])
      match step1.1.entry with
      | some _ => .error (.fileExistsError "File exists")
      | none => .ok ({ step1.1 with entry := some (.symlink target) },
          step1.2 ++ [.symlinkNew target])
    else .ok (fs, [])

/-- C7: the claim states that removal plus re-creation happens exactly when
the link is absent or its target differs, so a second invocation with an
unchanged project directory performs no removal and no re-creation.  In the
code the comparison os.readlink(link_path) != target compares a str with a
Path and is therefore always True, so the second invocation unlinks and
re-creates the symlink even though it already points at the project
directory. -/
theorem c7_second_invocation_recreates_symlink :
    selfLinkStep { entry := none, live := ["/proj"] } "/proj"
        = .ok ({ entry := some (.symlink "/proj"), live := ["/proj"] },
            [.symlinkNew "/proj"])
      ∧ selfLinkStep { entry := some (.symlink "/proj"), live := ["/proj"] } "/proj"
        = .ok ({ entry := some (.symlink "/proj"), live := ["/proj"] },
            [.unlink, .symlinkNew "/proj"]) :=
  ⟨rfl, rfl⟩

/-- C8: the claim states that a pre-existing symlink with a different
target is replaced without raising, including a stale target that no
longer exists on disk.  For a dangling symlink, link_path.exists() follows
the link and returns False, so the unlink guarded by it is skipped, and
symlink_to then raises FileExistsError because the entry is still
present. -/
theorem c8_dangling_symlink_raises_fileexists :
    selfLinkStep { entry := some (.symlink "/old"), live := ["/proj"] } "/proj"
      = .error (.fileExistsError "File exists") := rfl

/-- Amended characterization of the identifiers accepted by the module-name
pattern (C3 corrected): after ignoring one trailing newline, either a
single nonempty word token, or at least three dot-separated segments whose
first two are nonempty word tokens and whose remaining segments consist of
word characters but may be empty, except that a lone empty third segment
(a bare trailing dot right after the second segment) is rejected. -/
def amendedPartsOk : List (List Char) → Bool
  | [w] => wordToken w
  | w1 :: w2 :: rest =>
    wordToken w1 && wordToken w2 && !rest.isEmpty
      && rest.all (fun p => p.all wordChar) && !(rest == [[]])
  | [] => false

def amendedValidModuleName (s : String) : Bool :=
  amendedPartsOk ((stripFinalNewline s.data).splitOn '.')

/-- Shape of the tail segments accepted after the first segment and its
dot: at least two further segments, the first of them a word token, the
rest word strings not reducing to a single empty segment. -/
def innerPartsOk : List (List Char) → Bool
  | q :: r0 :: rs =>
    wordToken q && (r0 :: rs).all (fun p => p.all wordChar) && !((r0 :: rs) == [[]])
  | _ => false

theorem splitOn_dot_all_word (r : List Char) :
    ((r.splitOn '.').all fun p => p.all wordChar) = r.all dotWordChar := by
  unfold List.splitOn
  induction r with
  | nil => rfl
  | cons x xs ih =>
    rw [List.splitOnP_cons]
    by_cases hx : x = '.'
    · subst hx
      simpa [dotWordChar] using ih
    · cases hsp : List.splitOnP (fun c => c == '.') xs with
      | nil => exact absurd hsp (List.splitOnP_ne_nil _ _)
      | cons q t =>
        rw [hsp] at ih
        simp only [List.all_cons] at ih
        simp [hx, dotWordChar, ← ih, Bool.and_assoc]

theorem splitOn_dot_beq_nilnil (r : List Char) :
    ((r.splitOn '.') == [[]]) = r.isEmpty := by
  unfold List.splitOn
  cases r with
  | nil => rfl
  | cons x xs =>
    rw [List.splitOnP_cons]
    by_cases hx : x = '.'
    · subst hx
      cases hsp : List.splitOnP (fun c => c == '.') xs with
      | nil => exact absurd hsp (List.splitOnP_ne_nil _ _)
      | cons q t => simp
    · cases hsp : List.splitOnP (fun c => c == '.') xs with
      | nil => exact absurd hsp (List.splitOnP_ne_nil _ _)
      | cons q t => simp [hx]

theorem splitOn_dot_head (l : List Char) :
    ∃ t, l.splitOn '.' = (l.takeWhile fun c => !(c == '.')) :: t := by
  unfold List.splitOn
  induction l with
  | nil => exact ⟨[], rfl⟩
  | cons x xs ih =>
    rw [List.splitOnP_cons]
    by_cases hx : x = '.'
    · subst hx
      exact ⟨List.splitOnP (fun c => c == '.') xs, by simp [List.takeWhile_cons]⟩
    · obtain ⟨t, ht⟩ := ih
      exact ⟨t, by simp [hx, ht, List.takeWhile_cons]⟩

theorem amendedPartsOk_head_not_word {q : List Char} {t : List (List Char)}
    (h : q.all wordChar = false) : amendedPartsOk (q :: t) = false := by
  cases t <;> simp [amendedPartsOk, wordToken, h]

theorem innerPartsOk_head_not_word {q : List Char} {t : List (List Char)}
    (h : q.all wordChar = false) : innerPartsOk (q :: t) = false := by
  cases t <;> simp [innerPartsOk, wordToken, h]

theorem amendedPartsOk_cons (w q : List Char) (t : List (List Char)) :
    amendedPartsOk (w :: q :: t) = (wordToken w && innerPartsOk (q :: t)) := by
  cases t <;> simp [amendedPartsOk, innerPartsOk, Bool.and_assoc]

theorem matchesTail_eq (r2 : List Char) :
    matchesTail r2 = innerPartsOk (r2.splitOn '.') := by
  have hwall : (r2.takeWhile wordChar).all wordChar = true := List.all_takeWhile
  have hdec : r2.takeWhile wordChar ++ r2.dropWhile wordChar = r2 :=
    List.takeWhile_append_dropWhile wordChar r2
  have hwnd : ∀ x ∈ r2.takeWhile wordChar, ¬ ((x == '.') = true) := by
    intro x hx hbe
    have hxw := List.all_eq_true.mp hwall x hx
    rw [beq_iff_eq] at hbe
    subst hbe
    simp [wordChar] at hxw
  unfold matchesTail
  cases hr : r2.dropWhile wordChar with
  | nil =>
    have hl : r2.takeWhile wordChar = r2 := by rw [hr, List.append_nil] at hdec; exact hdec
    have hsingle : r2.splitOn '.' = [r2] := by
      unfold List.splitOn
      exact List.splitOnP_eq_single _ _ (fun x hx => hwnd x (by rw [hl]; exact hx))
    rw [hsingle]
    simp [innerPartsOk]
  | cons d r4 =>
    have hdnw : wordChar d = false := by
      have h := List.head?_dropWhile_not wordChar r2
      rw [hr] at h
      simpa using h
    have hl2 : r2 = r2.takeWhile wordChar ++ d :: r4 := by
      conv_lhs => rw [← hdec, hr]
    by_cases hddot : d = '.'
    · subst hddot
      have hsp : r2.splitOn '.' = (r2.takeWhile wordChar) :: r4.splitOn '.' := by
        conv_lhs => rw [hl2]
        unfold List.splitOn
        exact List.splitOnP_first _ _ hwnd '.' (by simp) r4
      rw [hsp]
      obtain ⟨q0, t0, hq⟩ : ∃ a t, r4.splitOn '.' = a :: t := by
        cases hs : r4.splitOn '.' with
        | nil =>
          exact absurd hs (by unfold List.splitOn; exact List.splitOnP_ne_nil _ _)
        | cons a t => exact ⟨a, t, rfl⟩
      have hS1 := splitOn_dot_all_word r4
      have hS2 := splitOn_dot_beq_nilnil r4
      rw [hq] at hS1 hS2
      rw [hq]
      split
      · rename_i r heq
        injection heq with _ h2
        subst h2
        simp only [innerPartsOk, wordToken, hS1, hS2, hwall, Bool.and_true]
        cases (r2.takeWhile wordChar).isEmpty <;> cases r4.isEmpty <;>
          cases r4.all dotWordChar <;> rfl
      · rename_i hne
        exact absurd rfl (by intro h; exact hne r4 h)
    · have hndw : ∀ a ∈ r2.takeWhile wordChar, ((fun c : Char => !(c == '.')) a) = true := by
        intro a ha
        simpa using hwnd a ha
      have htk : (r2.takeWhile fun c => !(c == '.'))
          = r2.takeWhile wordChar ++ d :: (r4.takeWhile fun c => !(c == '.')) := by
        conv_lhs => rw [hl2]
        rw [List.takeWhile_append_of_pos hndw, List.takeWhile_cons]
        simp [hddot]
      obtain ⟨t, ht⟩ := splitOn_dot_head r2
      rw [ht]
      have hqa : (r2.takeWhile fun c => !(c == '.')).all wordChar = false := by
        cases hall : (r2.takeWhile fun c => !(c == '.')).all wordChar with
        | false => rfl
        | true =>
          have hmem : d ∈ (r2.takeWhile fun c => !(c == '.')) := by
            rw [htk]
            exact List.mem_append_right _ (List.mem_cons_self _ _)
          have := List.all_eq_true.mp hall d hmem
          rw [hdnw] at this
          cases this
      rw [innerPartsOk_head_not_word hqa]
      split
      · rename_i r heq
        injection heq with h1 _
        exact absurd h1 hddot
      · simp

theorem matchesModuleBody_eq_amended (l : List Char) :
    matchesModuleBody l = amendedPartsOk (l.splitOn '.') := by
  have hwall : (l.takeWhile wordChar).all wordChar = true := List.all_takeWhile
  have hdec : l.takeWhile wordChar ++ l.dropWhile wordChar = l :=
    List.takeWhile_append_dropWhile wordChar l
  have hwnd : ∀ x ∈ l.takeWhile wordChar, ¬ ((x == '.') = true) := by
    intro x hx hbe
    have hxw := List.all_eq_true.mp hwall x hx
    rw [beq_iff_eq] at hbe
    subst hbe
    simp [wordChar] at hxw
  unfold matchesModuleBody
  cases hr : l.dropWhile wordChar with
  | nil =>
    have hl : l.takeWhile wordChar = l := by rw [hr, List.append_nil] at hdec; exact hdec
    have hsingle : l.splitOn '.' = [l] := by
      unfold List.splitOn
      exact List.splitOnP_eq_single _ _ (fun x hx => hwnd x (by rw [hl]; exact hx))
    have hall : l.all wordChar = true := by rw [← hl]; exact hwall
    rw [hsingle, hl]
    simp [amendedPartsOk, wordToken, hall]
  | cons c r2 =>
    have hcnw : wordChar c = false := by
      have h2 := List.head?_dropWhile_not wordChar l
      rw [hr] at h2
      simpa using h2
    have hl2 : l = l.takeWhile wordChar ++ c :: r2 := by
      conv_lhs => rw [← hdec, hr]
    by_cases hcdot : c = '.'
    · subst hcdot
      have hsp : l.splitOn '.' = (l.takeWhile wordChar) :: r2.splitOn '.' := by
        conv_lhs => rw [hl2]
        unfold List.splitOn
        exact List.splitOnP_first _ _ hwnd '.' (by simp) r2
      rw [hsp]
      obtain ⟨q0, t0, hq⟩ : ∃ a t, r2.splitOn '.' = a :: t := by
        cases hs : r2.splitOn '.' with
        | nil =>
          exact absurd hs (by unfold List.splitOn; exact List.splitOnP_ne_nil _ _)
        | cons a t => exact ⟨a, t, rfl⟩
      rw [hq, amendedPartsOk_cons]
      split
      · rename_i heq
        exact absurd heq (List.cons_ne_nil _ _)
      · rename_i r heq
        injection heq with _ h2
        subst h2
        rw [matchesTail_eq, hq]
        simp [wordToken, hwall]
      · rename_i hne1 hne2
        exact absurd rfl (by intro h; exact hne2 r2 h)
    · have hndw : ∀ a ∈ l.takeWhile wordChar, ((fun x : Char => !(x == '.')) a) = true := by
        intro a ha
        simpa using hwnd a ha
      have htk : (l.takeWhile fun x => !(x == '.'))
          = l.takeWhile wordChar ++ c :: (r2.takeWhile fun x => !(x == '.')) := by
        conv_lhs => rw [hl2]
        rw [List.takeWhile_append_of_pos hndw, List.takeWhile_cons]
        simp [hcdot]
      obtain ⟨t, ht⟩ := splitOn_dot_head l
      rw [ht]
      have hqa : (l.takeWhile fun x => !(x == '.')).all wordChar = false := by
        cases hall : (l.takeWhile fun x => !(x == '.')).all wordChar with
        | false => rfl
        | true =>
          have hmem : c ∈ (l.takeWhile fun x => !(x == '.')) := by
            rw [htk]
            exact List.mem_append_right _ (List.mem_cons_self _ _)
          have h3 := List.all_eq_true.mp hall c hmem
          rw [hcnw] at h3
          cases h3
      rw [amendedPartsOk_head_not_word hqa]
      split
      · rename_i heq
        exact absurd heq (List.cons_ne_nil _ _)
      · rename_i r heq
        injection heq with h1 _
        exact absurd h1 hcdot
      · simp

/-- C3 amended: a module identifier is accepted by the stub writer exactly
when, after ignoring one trailing newline, it is a single nonempty word
token, or it has at least three dot-separated segments whose first two are
nonempty word tokens and whose remaining segments are possibly-empty word
strings, a lone empty third segment excluded. -/
theorem c3_pattern_amended (s : String) :
    reMatchModuleName s = amendedValidModuleName s := by
  unfold reMatchModuleName amendedValidModuleName
  exact matchesModuleBody_eq_amended (stripFinalNewline s.data)

/-- Character-list form of the slash join used inside the stub paths. -/
def joinSlashData : List (List Char) → List Char
  | [] => []
  | [m] => m
  | m :: rest => m ++ '/' :: joinSlashData rest

theorem map_mk_data (x : List (List Char)) :
    (x.map String.mk).map String.data = x := by
  induction x with
  | nil => rfl
  | cons a b ih => simp [ih]

theorem joinSlash_data (l : List String) :
    (joinSlash l).data = joinSlashData (l.map String.data) := by
  induction l with
  | nil => rfl
  | cons s rest ih =>
    cases rest with
    | nil => rfl
    | cons b bs =>
      simp only [joinSlash, joinSlashData, List.map_cons]
      rw [String.data_append, String.data_append, ih]
      simp [List.append_assoc]

theorem word_slash_cancel {w1 : List Char} :
    ∀ {w2 r1 r2 : List Char}, w1.all wordChar = true → w2.all wordChar = true →
      w1 ++ '/' :: r1 = w2 ++ '/' :: r2 → w1 = w2 ∧ r1 = r2 := by
  induction w1 with
  | nil =>
    intro w2 r1 r2 _ hw2 heq
    cases w2 with
    | nil =>
      refine ⟨rfl, ?_⟩
      simpa using heq
    | cons b bs =>
      rw [List.nil_append, List.cons_append] at heq
      injection heq with hhd _
      have hb : wordChar b = true := List.all_eq_true.mp hw2 b (List.mem_cons_self _ _)
      rw [← hhd] at hb
      simp [wordChar] at hb
  | cons a as ih =>
    intro w2 r1 r2 hw1 hw2 heq
    cases w2 with
    | nil =>
      rw [List.nil_append, List.cons_append] at heq
      injection heq with hhd _
      have ha : wordChar a = true := List.all_eq_true.mp hw1 a (List.mem_cons_self _ _)
      rw [hhd] at ha
      simp [wordChar] at ha
    | cons b bs =>
      rw [List.cons_append, List.cons_append] at heq
      injection heq with hhd htl
      subst hhd
      have hw1t : as.all wordChar = true := by
        simp only [List.all_cons, Bool.and_eq_true] at hw1
        exact hw1.2
      have hw2t : bs.all wordChar = true := by
        simp only [List.all_cons, Bool.and_eq_true] at hw2
        exact hw2.2
      obtain ⟨he1, he2⟩ := ih hw1t hw2t htl
      exact ⟨by rw [he1], he2⟩

theorem joinSlashData_cancel :
    ∀ (ms1 : List (List Char)) {ms2 : List (List Char)} {t1 t2 : List Char},
      ms1.all wordToken = true → ms2.all wordToken = true →
      ('/' ∈ t1 → False) → ('/' ∈ t2 → False) →
      joinSlashData ms1 ++ '/' :: t1 = joinSlashData ms2 ++ '/' :: t2 →
      ms1 = ms2 ∧ t1 = t2 := by
  have hword : ∀ (m : List Char) (ms : List (List Char)),
      (m :: ms).all wordToken = true → (!m.isEmpty && m.all wordChar) = true := by
    intro m ms h
    exact List.all_eq_true.mp h m (List.mem_cons_self _ _)
  have hshape : ∀ (m : List Char) (ms : List (List Char)) (t : List Char),
      joinSlashData (m :: ms) ++ '/' :: t
        = m ++ (match ms with
                | [] => '/' :: t
                | _ :: _ => '/' :: (joinSlashData ms ++ '/' :: t)) := by
    intro m ms t
    cases ms with
    | nil => rfl
    | cons y ys => simp [joinSlashData, List.append_assoc]
  intro ms1
  induction ms1 with
  | nil =>
    intro ms2 t1 t2 _ hm2 ht1 ht2 heq
    cases ms2 with
    | nil =>
      refine ⟨rfl, ?_⟩
      simpa using heq
    | cons m2 rest2 =>
      exfalso
      rw [hshape] at heq
      have hm2h := hword m2 rest2 hm2
      obtain ⟨x, xs, hx⟩ : ∃ x xs, m2 = x :: xs := by
        cases m2 with
        | nil => simp at hm2h
        | cons x xs => exact ⟨x, xs, rfl⟩
      subst hx
      simp only [joinSlashData, List.nil_append, List.cons_append] at heq
      injection heq with hhd _
      have hxw : wordChar x = true := by
        simp only [Bool.and_eq_true, List.all_cons] at hm2h
        exact hm2h.2.1
      rw [← hhd] at hxw
      simp [wordChar] at hxw
  | cons m1 rest1 ih =>
    intro ms2 t1 t2 hm1 hm2 ht1 ht2 heq
    cases ms2 with
    | nil =>
      exfalso
      rw [hshape] at heq
      have hm1h := hword m1 rest1 hm1
      obtain ⟨x, xs, hx⟩ : ∃ x xs, m1 = x :: xs := by
        cases m1 with
        | nil => simp at hm1h
        | cons x xs => exact ⟨x, xs, rfl⟩
      subst hx
      simp only [joinSlashData, List.nil_append, List.cons_append] at heq
      injection heq with hhd _
      have hxw : wordChar x = true := by
        simp only [Bool.and_eq_true, List.all_cons] at hm1h
        exact hm1h.2.1
      rw [hhd] at hxw
      simp [wordChar] at hxw
    | cons m2 rest2 =>
      rw [hshape, hshape] at heq
      have hm1h := hword m1 rest1 hm1
      have hm2h := hword m2 rest2 hm2
      have hw1 : m1.all wordChar = true := by
        simp only [Bool.and_eq_true] at hm1h
        exact hm1h.2
      have hw2 : m2.all wordChar = true := by
        simp only [Bool.and_eq_true] at hm2h
        exact hm2h.2
      have hm1t : rest1.all wordToken = true := by
        simp only [List.all_cons, Bool.and_eq_true] at hm1
        exact hm1.2
      have hm2t : rest2.all wordToken = true := by
        simp only [List.all_cons, Bool.and_eq_true] at hm2
        exact hm2.2
      cases rest1 with
      | nil =>
        cases rest2 with
        | nil =>
          obtain ⟨he1, he2⟩ := word_slash_cancel hw1 hw2 heq
          exact ⟨by rw [he1], he2⟩
        | cons y ys =>
          obtain ⟨_, he2⟩ := word_slash_cancel hw1 hw2 heq
          exact absurd (he2 ▸ List.mem_append_right _ (List.mem_cons_self _ _)) ht1
      | cons z zs =>
        cases rest2 with
        | nil =>
          obtain ⟨_, he2⟩ := word_slash_cancel hw1 hw2 heq
          exact absurd (he2 ▸ List.mem_append_right _ (List.mem_cons_self _ _)) ht2
        | cons y ys =>
          obtain ⟨he1, he2⟩ := word_slash_cancel hw1 hw2 heq
          obtain ⟨he3, he4⟩ := ih hm1t hm2t ht1 ht2 he2
          exact ⟨by rw [he1, he3], he4⟩

theorem computeStub_bare (cache m : String) (h : (pySplitDot m).length < 3) :
    (computeStub cache m).module_file = cache ++ "/modules/" ++ m ++ ".py" := by
  simp only [computeStub]
  rw [if_pos h]

theorem computeStub_qual (cache m : String) (h : ¬ (pySplitDot m).length < 3) :
    (computeStub cache m).module_file
      = cache ++ "/collections/ansible_collections/" ++ (pySplitDot m).headD "" ++ "/"
        ++ ((pySplitDot m).drop 1).headD "" ++ "/plugins/modules/"
        ++ joinSlash (((pySplitDot m).drop 2).dropLast) ++ "/"
        ++ (pySplitDot m).getLastD "" ++ ".py" := by
  simp only [computeStub]
  rw [if_neg h]

theorem dropLast_append_getLastD {α : Type} (a : α) (l : List α) :
    ∀ d : α, (a :: l).dropLast ++ [(a :: l).getLastD d] = a :: l := by
  induction l generalizing a with
  | nil => intro d; rfl
  | cons b t ih =>
    intro d
    rw [List.getLastD_cons]
    have h1 : (a :: b :: t).dropLast = a :: (b :: t).dropLast := by
      simp
    rw [h1, List.cons_append, ih b a]

theorem all_dropLast {α : Type} {p : α → Bool} {l : List α} (h : l.all p = true) :
    l.dropLast.all p = true := by
  rw [List.all_eq_true] at h ⊢
  exact fun x hx => h x ((List.dropLast_sublist l).subset hx)

theorem data_eq_of_splitOn_eq {l1 l2 : List Char}
    (h : l1.splitOn '.' = l2.splitOn '.') : l1 = l2 := by
  have h1 := List.intercalate_splitOn l1 '.'
  have h2 := List.intercalate_splitOn l2 '.'
  rw [← h1, ← h2, h]

theorem specValid_parts {m : String} (h : specValidModuleName m = true) :
    (m.data.splitOn '.').all wordToken = true
      ∧ ((m.data.splitOn '.').length = 1 ∨ 3 ≤ (m.data.splitOn '.').length) := by
  unfold specValidModuleName at h
  simp only [Bool.and_eq_true, Bool.or_eq_true, beq_iff_eq, decide_eq_true_eq] at h
  exact ⟨h.2, h.1⟩

theorem exists_three_of_len {α : Type} {l : List α} (h : 3 ≤ l.length) :
    ∃ a b c t, l = a :: b :: c :: t := by
  cases l with
  | nil => simp at h
  | cons a l1 =>
    cases l1 with
    | nil => simp at h
    | cons b l2 =>
      cases l2 with
      | nil => simp at h
      | cons c t => exact ⟨a, b, c, t, rfl⟩

theorem pySplitDot_length (m : String) :
    (pySplitDot m).length = (m.data.splitOn '.').length := by
  simp [pySplitDot]

theorem computeStub_qual_data (cache m : String) {a0 a1 a2 : List Char}
    {ar : List (List Char)} (hb : ¬ (pySplitDot m).length < 3)
    (hA : m.data.splitOn '.' = a0 :: a1 :: a2 :: ar) :
    (computeStub cache m).module_file.data
      = cache.data ++ ("/collections/ansible_collections/".data
        ++ (a0 ++ ('/' :: (a1 ++ ('/' :: ("plugins/modules/".data
        ++ (joinSlashData ((a2 :: ar).dropLast)
        ++ ('/' :: (ar.getLastD a2 ++ ".py".data))))))))) := by
  rw [computeStub_qual cache m hb]
  have hp : pySplitDot m
      = String.mk a0 :: String.mk a1 :: String.mk a2 :: (ar.map String.mk) := by
    unfold pySplitDot
    rw [hA]
    rfl
  rw [hp]
  have hmap : String.mk a2 :: ar.map String.mk = (a2 :: ar).map String.mk := rfl
  have hdl : (String.mk a2 :: ar.map String.mk).dropLast
      = ((a2 :: ar).dropLast).map String.mk := by
    rw [hmap, List.map_dropLast]
  have hgl : (String.mk a0 :: String.mk a1 :: String.mk a2 :: ar.map String.mk).getLastD ""
      = String.mk (ar.getLastD a2) := by
    rw [List.getLastD_cons, List.getLastD_cons, hmap]
    have h3 := List.getLastD_map String.mk (a2 :: ar) a1
    rw [List.getLastD_cons] at h3
    exact h3
  simp only [List.headD_cons, List.drop_succ_cons, List.drop_zero, hdl, hgl]
  simp only [String.data_append]
  rw [joinSlash_data, map_mk_data]
  have hsl : "/".data = ['/'] := rfl
  have hpm : "/plugins/modules/".data = '/' :: "plugins/modules/".data := rfl
  simp only [hsl, hpm, List.append_assoc, List.singleton_append, List.cons_append,
    List.nil_append]

theorem computeStub_bare_data (cache m : String) (h : (pySplitDot m).length < 3) :
    (computeStub cache m).module_file.data
      = cache.data ++ ("/modules/".data ++ (m.data ++ ".py".data)) := by
  rw [computeStub_bare cache m h]
  simp only [String.data_append, List.append_assoc]

theorem wordToken_all {l : List Char} (h : wordToken l = true) : l.all wordChar = true := by
  simp only [wordToken, Bool.and_eq_true] at h
  exact h.2

theorem no_slash_of_word {l : List Char} (h : l.all wordChar = true) (hm : '/' ∈ l) :
    False := by
  have hc := List.all_eq_true.mp h _ hm
  simp [wordChar] at hc

theorem getLastD_mem_cons {α : Type} : ∀ (l : List α) (d : α), l.getLastD d ∈ d :: l := by
  intro l
  induction l with
  | nil => intro d; simp [List.getLastD]
  | cons b t ih =>
    intro d
    rw [List.getLastD_cons]
    exact List.mem_cons_of_mem d (ih b)

/-- C4 amended: on identifiers in canonical dotted form (nonempty word
segments, one or at least three of them), the stub file path is an
injective function of the identifier for any fixed cache directory. -/
theorem c4_injective_on_canonical (cache m1 m2 : String)
    (h1 : specValidModuleName m1 = true) (h2 : specValidModuleName m2 = true)
    (heq : (computeStub cache m1).module_file = (computeStub cache m2).module_file) :
    m1 = m2 := by
  obtain ⟨hall1, hlen1⟩ := specValid_parts h1
  obtain ⟨hall2, hlen2⟩ := specValid_parts h2
  have hd := congrArg String.data heq
  have eM : "/modules/".data = ['/', 'm', 'o', 'd', 'u', 'l', 'e', 's', '/'] := rfl
  have eC : "/collections/ansible_collections/".data
      = ['/', 'c', 'o', 'l', 'l', 'e', 'c', 't', 'i', 'o', 'n', 's', '/', 'a', 'n',
         's', 'i', 'b', 'l', 'e', '_', 'c', 'o', 'l', 'l', 'e', 'c', 't', 'i', 'o',
         'n', 's', '/'] := rfl
  by_cases hb1 : (pySplitDot m1).length < 3 <;> by_cases hb2 : (pySplitDot m2).length < 3
  · rw [computeStub_bare_data cache m1 hb1, computeStub_bare_data cache m2 hb2] at hd
    have s1 := List.append_cancel_left hd
    have s2 := List.append_cancel_left s1
    have s3 := List.append_cancel_right s2
    exact String.ext s3
  · have hge2 : 3 ≤ (m2.data.splitOn '.').length := by
      rcases hlen2 with hl | hl
      · rw [pySplitDot_length] at hb2; omega
      · exact hl
    obtain ⟨b0, b1, b2, br, hB⟩ := exists_three_of_len hge2
    rw [computeStub_bare_data cache m1 hb1,
        computeStub_qual_data cache m2 hb2 hB] at hd
    have s1 := List.append_cancel_left hd
    rw [eM, eC] at s1
    simp only [List.cons_append, List.nil_append] at s1
    injection s1 with _ s2
    injection s2 with hmc _
    exact absurd hmc (by decide)
  · have hge1 : 3 ≤ (m1.data.splitOn '.').length := by
      rcases hlen1 with hl | hl
      · rw [pySplitDot_length] at hb1; omega
      · exact hl
    obtain ⟨a0, a1, a2, ar, hA⟩ := exists_three_of_len hge1
    rw [computeStub_qual_data cache m1 hb1 hA,
        computeStub_bare_data cache m2 hb2] at hd
    have s1 := List.append_cancel_left hd
    rw [eM, eC] at s1
    simp only [List.cons_append, List.nil_append] at s1
    injection s1 with _ s2
    injection s2 with hmc _
    exact absurd hmc (by decide)
  · have hge1 : 3 ≤ (m1.data.splitOn '.').length := by
      rcases hlen1 with hl | hl
      · rw [pySplitDot_length] at hb1; omega
      · exact hl
    have hge2 : 3 ≤ (m2.data.splitOn '.').length := by
      rcases hlen2 with hl | hl
      · rw [pySplitDot_length] at hb2; omega
      · exact hl
    obtain ⟨a0, a1, a2, ar, hA⟩ := exists_three_of_len hge1
    obtain ⟨b0, b1, b2, br, hB⟩ := exists_three_of_len hge2
    rw [computeStub_qual_data cache m1 hb1 hA,
        computeStub_qual_data cache m2 hb2 hB] at hd
    rw [hA] at hall1
    rw [hB] at hall2
    simp only [List.all_cons, Bool.and_eq_true] at hall1 hall2
    obtain ⟨ht0a, ht1a, ht2a, htra⟩ := hall1
    obtain ⟨ht0b, ht1b, ht2b, htrb⟩ := hall2
    have s1 := List.append_cancel_left hd
    have s2 := List.append_cancel_left s1
    obtain ⟨e0, s3⟩ := word_slash_cancel (wordToken_all ht0a) (wordToken_all ht0b) s2
    obtain ⟨e1, s4⟩ := word_slash_cancel (wordToken_all ht1a) (wordToken_all ht1b) s3
    have s5 := List.append_cancel_left s4
    have hsega : ((a2 :: ar).dropLast).all wordToken = true := by
      apply all_dropLast
      simp only [List.all_cons, Bool.and_eq_true]
      exact ⟨ht2a, htra⟩
    have hsegb : ((b2 :: br).dropLast).all wordToken = true := by
      apply all_dropLast
      simp only [List.all_cons, Bool.and_eq_true]
      exact ⟨ht2b, htrb⟩
    have hstem : ∀ (c2 : List Char) (cr : List (List Char)),
        wordToken c2 = true → cr.all wordToken = true →
        (cr.getLastD c2).all wordChar = true := by
      intro c2 cr hc hcr
      have hmem := getLastD_mem_cons cr c2
      rcases List.mem_cons.mp hmem with hh | hh
      · rw [hh]; exact wordToken_all hc
      · exact wordToken_all (List.all_eq_true.mp hcr _ hh)
    have hnos1 : '/' ∈ (ar.getLastD a2 ++ ".py".data) → False := by
      intro hm
      rcases List.mem_append.mp hm with hm | hm
      · exact no_slash_of_word (hstem a2 ar ht2a htra) hm
      · exact absurd hm (by decide)
    have hnos2 : '/' ∈ (br.getLastD b2 ++ ".py".data) → False := by
      intro hm
      rcases List.mem_append.mp hm with hm | hm
      · exact no_slash_of_word (hstem b2 br ht2b htrb) hm
      · exact absurd hm (by decide)
    obtain ⟨emid, es⟩ := joinSlashData_cancel _ hsega hsegb hnos1 hnos2 s5
    have estem : ar.getLastD a2 = br.getLastD b2 := List.append_cancel_right es
    have hrec1 : (a2 :: ar).dropLast ++ [ar.getLastD a2] = a2 :: ar := by
      have h := dropLast_append_getLastD a2 ar a2
      rw [List.getLastD_cons] at h
      exact h
    have hrec2 : (b2 :: br).dropLast ++ [br.getLastD b2] = b2 :: br := by
      have h := dropLast_append_getLastD b2 br b2
      rw [List.getLastD_cons] at h
      exact h
    have etail : a2 :: ar = b2 :: br := by
      rw [← hrec1, emid, estem, hrec2]
    injection etail with ea eb
    have hparts : m1.data.splitOn '.' = m2.data.splitOn '.' := by
      rw [hA, hB, e0, e1, ea, eb]
    exact String.ext (data_eq_of_splitOn_eq hparts)

theorem c4_injective_on_canonical_witness :
    specValidModuleName "ns.coll.mod" = true
      ∧ "ns.coll.mod" = "ns.coll.mod" :=
  ⟨by decide, c4_injective_on_canonical "/c" "ns.coll.mod" "ns.coll.mod"
    (by decide) (by decide) rfl⟩
